import Mathlib

/-!
# LinkGopher: classification and conversion of share links

A shallow embedding of `link.go`.  A Go `string` is modelled as the list of
its Unicode characters (`List Char`); every pattern the program searches for is
ASCII, so matching on characters and matching on UTF-8 bytes agree.  The
functions of Go's `strings` package that the program calls are embedded by
their documented behaviour; `fmt.Sprintf` with `%s` verbs is concatenation.
-/

namespace LinkGopher

/-- A Go string, as the list of its characters. -/
abbrev GoString := List Char

/-! ## The `strings` package -/

/-- `unicode.IsSpace`: the Latin-1 spaces `\t \n \v \f \r`, space, U+0085,
U+00A0, and the other code points with the White_Space property. -/
def isSpace (c : Char) : Bool :=
  let n := c.toNat
  (9 ≤ n && n ≤ 13) || n == 32 || n == 0x85 || n == 0xA0 || n == 0x1680 ||
  (0x2000 ≤ n && n ≤ 0x200A) || n == 0x2028 || n == 0x2029 || n == 0x202F ||
  n == 0x205F || n == 0x3000

/-- `strings.TrimSpace`: all leading and trailing white space removed. -/
def trimSpace (s : GoString) : GoString :=
  ((s.dropWhile isSpace).reverse.dropWhile isSpace).reverse

/-- `strings.HasPrefix`. -/
def hasPrefix (s pre : GoString) : Bool :=
  pre.isPrefixOf s

/-- `strings.Contains`: `substr` occurs at some position of `s`. -/
def contains : GoString → GoString → Bool
  | [], substr => substr.isPrefixOf []
  | c :: cs, substr => substr.isPrefixOf (c :: cs) || contains cs substr

/-- The scan of `strings.Replace` for a non-empty `old`: `skip` counts the
characters of a match that are still to be passed over. -/
def replaceScan (old new : GoString) : Nat → GoString → GoString
  | _, [] => []
  | skip + 1, _ :: cs => replaceScan old new skip cs
  | 0, c :: cs =>
    if old.isPrefixOf (c :: cs) then new ++ replaceScan old new (old.length - 1) cs
    else c :: replaceScan old new 0 cs

/-- `strings.ReplaceAll`: the non-overlapping occurrences of `old`, found from
left to right, replaced by `new`.  An empty `old` matches before every
character and at the end. -/
def replaceAll (s old new : GoString) : GoString :=
  if old = new then s
  else if old = [] then new ++ s.flatMap (fun c => c :: new)
  else replaceScan old new 0 s

/-- Put a character in front of the first piece. -/
def consHead (c : Char) : List GoString → List GoString
  | [] => [[c]]
  | p :: ps => (c :: p) :: ps

/-- The scan of `strings.Split` for a non-empty separator. -/
def splitScan (sep : GoString) : Nat → GoString → List GoString
  | _, [] => [[]]
  | skip + 1, _ :: cs => splitScan sep skip cs
  | 0, c :: cs =>
    if sep.isPrefixOf (c :: cs) then [] :: splitScan sep (sep.length - 1) cs
    else consHead c (splitScan sep 0 cs)

/-- `strings.Split`: the pieces of `s` between the occurrences of `sep`; an
empty `sep` splits after every character. -/
def split (s sep : GoString) : List GoString :=
  if sep = [] then s.map (fun c => [c]) else splitScan sep 0 s

/-- `strings.Join`. -/
def join (parts : List GoString) (sep : GoString) : GoString :=
  sep.intercalate parts

/-- `strings.TrimRight`: the trailing characters that occur in `cutset`
removed. -/
def trimRight (s cutset : GoString) : GoString :=
  (s.reverse.dropWhile (fun c => cutset.elem c)).reverse

/-! ## Literals of the program -/

/-- The constant `AppTitle`. -/
def AppTitle : GoString := "LinkGopher".toList

/-- The raw literal of one forward slash. -/
def slash : GoString := ['/']

/-- The raw literal of one backslash. -/
def backslash : GoString := ['\\']

/-- The raw literal of two forward slashes. -/
def slash2 : GoString := ['/', '/']

/-- The raw literal of two backslashes. -/
def backslash2 : GoString := ['\\', '\\']

/-- The raw literal `smb:` followed by two forward slashes. -/
def smbPrefix : GoString := ['s', 'm', 'b', ':', '/', '/']

/-- The raw literal `file:` followed by two backslashes. -/
def filePrefix : GoString := ['f', 'i', 'l', 'e', ':', '\\', '\\']

/-- The literal `file:`. -/
def fileColon : GoString := ['f', 'i', 'l', 'e', ':']

/-! ## The program -/

/-- `checkString`: 1 for a Windows link, -1 for a Mac link, 0 for neither,
with the cleaned string. -/
def checkString (possibleLink : GoString) : Int × GoString :=
  let trimmedLink := trimSpace possibleLink
  if contains trimmedLink slash && contains trimmedLink backslash2 then
    (0, possibleLink)
  else if hasPrefix trimmedLink filePrefix || hasPrefix trimmedLink backslash2 then
    (1, trimmedLink)
  else if hasPrefix trimmedLink smbPrefix || hasPrefix trimmedLink slash2 then
    (-1, trimmedLink)
  else
    (0, possibleLink)

/-- `macToWindowsPath`. -/
def macToWindowsPath (macPath : GoString) : GoString :=
  let macPath := replaceAll macPath smbPrefix filePrefix
  let macPath := replaceAll macPath slash2 filePrefix
  let components := split macPath slash
  let windowsPath := join components backslash
  trimRight windowsPath backslash

/-- `windowsToMacPath`. -/
def windowsToMacPath (windowsPath : GoString) : GoString :=
  let windowsPath := replaceAll windowsPath slash backslash
  let windowsPath := replaceAll windowsPath filePrefix smbPrefix
  let windowsPath := replaceAll windowsPath backslash2 smbPrefix
  let components := split windowsPath backslash
  join components slash

/-- The hint appended to the failure message. -/
def extraInfoText : GoString :=
  "\nNote: When passing a windows (file:) path as an argument, please either use single quotes for the entire path ('file:\\\\example.corp\\folder') or escape each backslash with a second one (\\\\).".toList

/-- `convertLink`: the message and the converted link (empty if none). -/
def convertLink (link : GoString) : GoString × GoString :=
  let (linkType, possibleLink) := checkString link
  if linkType = 1 then
    let convertedLink := windowsToMacPath possibleLink
    (AppTitle ++ " - Converted Windows to Mac Path: \n".toList ++ convertedLink, convertedLink)
  else if linkType = -1 then
    let convertedLink := macToWindowsPath possibleLink
    (AppTitle ++ " - Converted Mac to Windows Path: \n".toList ++ convertedLink, convertedLink)
  else
    let extraInfo : GoString :=
      if contains possibleLink fileColon then extraInfoText else []
    (AppTitle ++ " - No valid link detected!".toList ++ extraInfo, [])

/-! ## The specification's `Classify` -/

/-- `Classify` as the specification words it: trim; mixed `/` and double
backslash is unrecognized with the input untouched; then the Windows
prefixes; then the Mac prefixes; else unrecognized with the input untouched. -/
def Classify (input : GoString) : Int × GoString :=
  let normalizedInput := trimSpace input
  if contains normalizedInput ['/'] = true ∧
      contains normalizedInput ['\\', '\\'] = true then (0, input)
  else if hasPrefix normalizedInput "file:\\\\".toList = true ∨
      hasPrefix normalizedInput "\\\\".toList = true then (1, normalizedInput)
  else if hasPrefix normalizedInput "smb://".toList = true ∨
      hasPrefix normalizedInput "//".toList = true then (-1, normalizedInput)
  else (0, input)

/-! ## Facts about the `strings` functions -/

theorem trimSpace_eq (s : GoString) :
    trimSpace s = ((s.dropWhile isSpace).reverse.dropWhile isSpace).reverse := rfl

theorem contains_iff_isInfix (s sub : GoString) : contains s sub = true ↔ sub <:+: s := by
  induction s with
  | nil =>
    simp [contains, List.isPrefixOf]
  | cons c cs ih =>
    simp only [contains, Bool.or_eq_true, ih, List.isPrefixOf_iff_prefix]
    rw [List.infix_cons_iff]

theorem dropWhile_suffix (p : Char → Bool) (s : GoString) : s.dropWhile p <:+ s := by
  induction s with
  | nil => simp
  | cons c cs ih =>
    rw [List.dropWhile_cons]
    split
    · exact ih.trans (List.suffix_cons c cs)
    · exact List.suffix_refl _

theorem dropWhile_decomp (p : Char → Bool) (s : GoString) :
    ∃ pre, s = pre ++ s.dropWhile p ∧ ∀ c ∈ pre, p c = true := by
  induction s with
  | nil => exact ⟨[], by simp⟩
  | cons c cs ih =>
    rw [List.dropWhile_cons]
    by_cases h : p c = true
    · obtain ⟨pre, h1, h2⟩ := ih
      refine ⟨c :: pre, ?_, ?_⟩
      · simp only [h, if_true, List.cons_append]; rw [← h1]
      · intro d hd
        rcases List.mem_cons.mp hd with rfl | hd
        · exact h
        · exact h2 d hd
    · exact ⟨[], by simp [h], by simp⟩

/-- The trimmed string sits inside the input, between two runs of white space. -/
theorem trimSpace_decomp (s : GoString) :
    ∃ pre post, s = pre ++ trimSpace s ++ post ∧
      (∀ c ∈ pre, isSpace c = true) ∧ (∀ c ∈ post, isSpace c = true) := by
  obtain ⟨pre, h1, h2⟩ := dropWhile_decomp isSpace s
  obtain ⟨q, h3, h4⟩ := dropWhile_decomp isSpace (s.dropWhile isSpace).reverse
  refine ⟨pre, q.reverse, ?_, h2, ?_⟩
  · have h5 : s.dropWhile isSpace = trimSpace s ++ q.reverse := by
      have := congrArg List.reverse h3
      simpa [trimSpace_eq] using this
    rw [List.append_assoc, ← h5]; exact h1
  · intro c hc; exact h4 c (List.mem_reverse.mp hc)

theorem dropWhile_head_not (p : Char → Bool) (s : GoString) :
    ∀ c ∈ (s.dropWhile p).head?, p c = false := by
  induction s with
  | nil => simp
  | cons c cs ih =>
    rw [List.dropWhile_cons]
    by_cases h : p c = true
    · simpa [h] using ih
    · simp [h]

theorem dropWhile_id_of_head (p : Char → Bool) (s : GoString)
    (h : ∀ c ∈ s.head?, p c = false) : s.dropWhile p = s := by
  cases s with
  | nil => rfl
  | cons c cs =>
    have : p c = false := h c (by simp)
    simp [List.dropWhile_cons, this]

/-- A trimmed string does not start with white space. -/
theorem trimSpace_head (s : GoString) : ∀ c ∈ (trimSpace s).head?, isSpace c = false := by
  intro c hc
  have hsuf : (trimSpace s).reverse <:+ (s.dropWhile isSpace).reverse := by
    rw [trimSpace_eq, List.reverse_reverse]; exact dropWhile_suffix _ _
  have hpre : trimSpace s <+: s.dropWhile isSpace := by
    have := List.reverse_prefix.mpr hsuf
    simpa using this
  obtain ⟨t, ht⟩ := hpre
  cases hts : trimSpace s with
  | nil => rw [hts] at hc; simp at hc
  | cons d ds =>
    rw [hts] at hc ht
    simp at hc; subst hc
    apply dropWhile_head_not isSpace s
    rw [← ht]; simp

/-- A trimmed string does not end with white space. -/
theorem trimSpace_last (s : GoString) :
    ∀ c ∈ (trimSpace s).reverse.head?, isSpace c = false := by
  rw [trimSpace_eq, List.reverse_reverse]
  exact dropWhile_head_not isSpace _

/-- A string that neither starts nor ends with white space is its own trim. -/
theorem trimSpace_id_of_ends (s : GoString) (h1 : ∀ c ∈ s.head?, isSpace c = false)
    (h2 : ∀ c ∈ s.reverse.head?, isSpace c = false) : trimSpace s = s := by
  rw [trimSpace_eq, dropWhile_id_of_head isSpace s h1,
    dropWhile_id_of_head isSpace s.reverse h2, List.reverse_reverse]

/-- `strings.TrimSpace` is idempotent. -/
theorem trimSpace_idem (s : GoString) : trimSpace (trimSpace s) = trimSpace s :=
  trimSpace_id_of_ends _ (trimSpace_head s) (trimSpace_last s)

theorem replaceScan_skip (old new : GoString) (k : Nat) (s : GoString) :
    replaceScan old new k s = replaceScan old new 0 (s.drop k) := by
  induction s generalizing k with
  | nil => cases k <;> simp [replaceScan]
  | cons c cs ih =>
    cases k with
    | zero => simp
    | succ k => simp only [replaceScan, List.drop_succ_cons]; exact ih k

theorem replaceScan_cons_of_no_match (old new : GoString) (c : Char) (cs : GoString)
    (h : old.isPrefixOf (c :: cs) = false) :
    replaceScan old new 0 (c :: cs) = c :: replaceScan old new 0 cs := by
  simp [replaceScan, h]

/-- A character that is not the first of `old` is copied by the scan. -/
theorem replaceScan_cons_of_ne (o : Char) (os new : GoString) (c : Char) (cs : GoString)
    (h : o ≠ c) :
    replaceScan (o :: os) new 0 (c :: cs) = c :: replaceScan (o :: os) new 0 cs := by
  apply replaceScan_cons_of_no_match
  simp [List.isPrefixOf, h]

/-- An occurrence of `old` at the front is replaced, and the scan goes on
after it. -/
theorem replaceScan_append (old new rest : GoString) (h : old ≠ []) :
    replaceScan old new 0 (old ++ rest) = new ++ replaceScan old new 0 rest := by
  cases old with
  | nil => exact absurd rfl h
  | cons o os =>
    have hp : (o :: os).isPrefixOf (o :: (os ++ rest)) = true := by
      rw [List.isPrefixOf_iff_prefix]; exact ⟨rest, rfl⟩
    simp only [List.cons_append, replaceScan, hp, if_true]
    rw [replaceScan_skip]
    simp

/-- Without an occurrence of `old` the scan copies the string. -/
theorem replaceScan_of_not_contains (old new s : GoString) (h : contains s old = false) :
    replaceScan old new 0 s = s := by
  induction s with
  | nil => simp [replaceScan]
  | cons c cs ih =>
    simp only [contains, Bool.or_eq_false_iff] at h
    rw [replaceScan_cons_of_no_match old new c cs h.1, ih h.2]

theorem replaceAll_eq_scan (s old new : GoString) (h1 : old ≠ new) (h2 : old ≠ []) :
    replaceAll s old new = replaceScan old new 0 s := by
  simp [replaceAll, h1, h2]

theorem splitScan_ne_nil (sep : GoString) (k : Nat) (s : GoString) :
    splitScan sep k s ≠ [] := by
  induction s generalizing k with
  | nil => cases k <;> simp [splitScan]
  | cons c cs ih =>
    cases k with
    | zero =>
      simp only [splitScan]
      split
      · simp
      · cases hL : splitScan sep 0 cs <;> simp [consHead]
    | succ k => simp only [splitScan]; exact ih k

theorem intercalate_nil_cons (sep : GoString) (L : List GoString) (h : L ≠ []) :
    sep.intercalate ([] :: L) = sep ++ sep.intercalate L := by
  cases L with
  | nil => exact absurd rfl h
  | cons p ps => simp [List.intercalate, List.intersperse]

theorem intercalate_consHead (sep : GoString) (c : Char) (L : List GoString) (h : L ≠ []) :
    sep.intercalate (consHead c L) = c :: sep.intercalate L := by
  cases L with
  | nil => exact absurd rfl h
  | cons p ps =>
    cases ps <;> simp [consHead, List.intercalate, List.intersperse]

/-- Replace every `a` by `b`, character by character. -/
def mapChar (a b : Char) (s : GoString) : GoString :=
  s.map (fun c => if c = a then b else c)

/-- Splitting at a one-character separator and joining with another character
replaces the one by the other. -/
theorem join_split_char (a b : Char) (s : GoString) :
    join (split s [a]) [b] = mapChar a b s := by
  have hs : split s [a] = splitScan [a] 0 s := by simp [split]
  rw [hs, join]
  clear hs
  induction s with
  | nil => simp [splitScan, mapChar, List.intercalate, List.intersperse]
  | cons c cs ih =>
    by_cases h : c = a
    · subst h
      have hp : [c].isPrefixOf (c :: cs) = true := by simp [List.isPrefixOf]
      simp only [splitScan, hp, if_true, List.length_singleton, Nat.sub_self]
      rw [intercalate_nil_cons _ _ (splitScan_ne_nil _ _ _), ih]
      simp [mapChar]
    · have hp : [a].isPrefixOf (c :: cs) = false := by
        simp [List.isPrefixOf]; exact fun h2 => h h2.symm
      simp only [splitScan, hp]
      rw [if_neg (by simp), intercalate_consHead _ _ _ (splitScan_ne_nil _ _ _), ih]
      simp [mapChar, h]

theorem contains_dropWhile (p : Char → Bool) (s sub : GoString) (hne : sub ≠ [])
    (hh : ∀ c ∈ sub.head?, p c = false) (h : contains s sub = true) :
    contains (s.dropWhile p) sub = true := by
  induction s with
  | nil => simpa using h
  | cons c cs ih =>
    rw [List.dropWhile_cons]
    by_cases hc : p c = true
    · simp only [hc, if_true]
      apply ih
      simp only [contains, Bool.or_eq_true] at h
      rcases h with h | h
      · exfalso
        cases sub with
        | nil => exact hne rfl
        | cons d ds =>
          have hd : p d = false := hh d (by simp)
          simp [List.isPrefixOf] at h
          rw [h.1, hc] at hd
          exact Bool.noConfusion hd
      · exact h
    · simpa [hc] using h

theorem contains_reverse (s sub : GoString) :
    contains s.reverse sub.reverse = contains s sub := by
  rw [Bool.eq_iff_iff, contains_iff_isInfix, contains_iff_isInfix, List.reverse_infix]

/-- Trimming keeps every occurrence of a pattern that neither starts nor ends
with white space. -/
theorem contains_trimSpace (s sub : GoString) (hne : sub ≠ [])
    (h1 : ∀ c ∈ sub.head?, isSpace c = false)
    (h2 : ∀ c ∈ sub.reverse.head?, isSpace c = false)
    (h : contains s sub = true) : contains (trimSpace s) sub = true := by
  have a := contains_dropWhile isSpace s sub hne h1 h
  rw [← contains_reverse] at a
  have b := contains_dropWhile isSpace _ sub.reverse (by simpa using hne) h2 a
  rw [← contains_reverse] at b
  simpa [trimSpace_eq] using b

/-! ## Classification -/

/-- The four return statements of `checkString`, by the tests on the trimmed
input. -/
theorem checkString_eq (s : GoString) :
    checkString s =
      if contains (trimSpace s) slash = true ∧ contains (trimSpace s) backslash2 = true then
        (0, s)
      else if hasPrefix (trimSpace s) filePrefix = true ∨
          hasPrefix (trimSpace s) backslash2 = true then (1, trimSpace s)
      else if hasPrefix (trimSpace s) smbPrefix = true ∨
          hasPrefix (trimSpace s) slash2 = true then (-1, trimSpace s)
      else (0, s) := by
  simp only [checkString, Bool.and_eq_true, Bool.or_eq_true]

/-- C1, as the code has it: `checkString` is the specification's `Classify` on
every input; the string it returns is the trimmed input when the tag is not 0
and the input itself when the tag is 0; on an input that trimming changes it
is the trimmed input exactly when the tag is not 0. -/
theorem checkString_eq_Classify (s : GoString) :
    checkString s = Classify s ∧
      ((checkString s).1 ≠ 0 → (checkString s).2 = trimSpace s) ∧
      ((checkString s).1 = 0 → (checkString s).2 = s) ∧
      (trimSpace s ≠ s → ((checkString s).2 = trimSpace s ↔ (checkString s).1 ≠ 0)) := by
  have h1 : (checkString s).1 ≠ 0 → (checkString s).2 = trimSpace s := by
    rw [checkString_eq]; split_ifs <;> simp
  have h0 : (checkString s).1 = 0 → (checkString s).2 = s := by
    rw [checkString_eq]; split_ifs <;> simp
  refine ⟨?_, h1, h0, ?_⟩
  · rw [checkString_eq]; rfl
  · intro hne
    refine ⟨fun h2 h3 => hne ?_, h1⟩
    rw [← h2, h0 h3]

theorem checkString_eq_Classify_witness :
    checkString "  smb://host/share ".toList = Classify "  smb://host/share ".toList ∧
      (checkString "  smb://host/share ".toList).2 = "smb://host/share".toList ∧
      (checkString " normal string ".toList).2 = " normal string ".toList ∧
      ((checkString "  smb://host/share ".toList).2 = trimSpace "  smb://host/share ".toList ↔
        (checkString "  smb://host/share ".toList).1 ≠ 0) :=
  ⟨(checkString_eq_Classify "  smb://host/share ".toList).1,
    ((checkString_eq_Classify "  smb://host/share ".toList).2.1 (by decide)).trans (by decide),
    (checkString_eq_Classify " normal string ".toList).2.2.1 (by decide),
    (checkString_eq_Classify "  smb://host/share ".toList).2.2.2 (by decide)⟩

/-- C1 as stated fails: an unrecognized input that is already trimmed has tag
0, and the string returned is the trimmed input all the same. -/
theorem checkString_trimmed_counterexample :
    (checkString "abc".toList).1 = 0 ∧
      (checkString "abc".toList).2 = trimSpace "abc".toList ∧
      ¬((checkString "abc".toList).2 = trimSpace "abc".toList ↔
        (checkString "abc".toList).1 ≠ 0) := by
  decide

/-- C2: an input holding both a `/` and two consecutive backslashes is
returned unchanged with tag 0, whatever surrounds them. -/
theorem checkString_mixed (s : GoString) (h1 : contains s slash = true)
    (h2 : contains s backslash2 = true) : checkString s = (0, s) := by
  have a : contains (trimSpace s) slash = true :=
    contains_trimSpace s slash (by decide) (by decide) (by decide) h1
  have b : contains (trimSpace s) backslash2 = true :=
    contains_trimSpace s backslash2 (by decide) (by decide) (by decide) h2
  rw [checkString_eq, if_pos ⟨a, b⟩]

theorem checkString_mixed_witness :
    checkString "  file:\\\\host/share \t".toList = (0, "  file:\\\\host/share \t".toList) :=
  checkString_mixed _ (by decide) (by decide)

/-- C3: the tag of an input is the tag of its trimmed form. -/
theorem checkString_tag_trimSpace (s : GoString) :
    (checkString s).1 = (checkString (trimSpace s)).1 := by
  rw [checkString_eq, checkString_eq, trimSpace_idem]
  split_ifs <;> rfl

/-! ## Conversion -/

/-- Remove every trailing occurrence of the character `a`. -/
def dropTrailing (a : Char) (s : GoString) : GoString :=
  (s.reverse.dropWhile (fun c => c == a)).reverse

/-- The value of `windowsPath` in `macToWindowsPath` before the final
`strings.TrimRight`. -/
def macBody (macPath : GoString) : GoString :=
  let macPath := replaceAll macPath smbPrefix filePrefix
  let macPath := replaceAll macPath slash2 filePrefix
  join (split macPath slash) backslash

/-- A separator character: `/` or backslash. -/
def isSep (c : Char) : Bool := c == '/' || c == '\\'

/-- Two neighbouring characters of the string are both separators. -/
def adjSep : GoString → Bool
  | c :: d :: cs => (isSep c && isSep d) || adjSep (d :: cs)
  | _ => false

theorem trimRight_char (s : GoString) (a : Char) : trimRight s [a] = dropTrailing a s := by
  simp only [trimRight, dropTrailing, List.elem]
  congr 2
  funext c
  cases c == a <;> rfl

theorem contains_false_of_isInfix (s sub big : GoString) (hi : sub <:+: big)
    (h : contains s sub = false) : contains s big = false := by
  rw [Bool.eq_false_iff] at h ⊢
  intro hb
  exact h ((contains_iff_isInfix _ _).mpr (hi.trans ((contains_iff_isInfix _ _).mp hb)))

theorem not_mem_of_not_contains (a : Char) (s : GoString) (h : contains s [a] = false) :
    a ∉ s := by
  intro hm
  rw [Bool.eq_false_iff] at h
  apply h
  rw [contains_iff_isInfix]
  obtain ⟨l1, l2, rfl⟩ := List.append_of_mem hm
  exact ⟨l1, l2, by simp⟩

theorem not_contains_of_not_mem (a : Char) (s sub : GoString) (hs : a ∈ sub) (h : a ∉ s) :
    contains s sub = false := by
  rw [Bool.eq_false_iff]
  intro hi
  rw [contains_iff_isInfix] at hi
  exact h (hi.subset hs)

theorem mapChar_cons (a b c : Char) (s : GoString) :
    mapChar a b (c :: s) = (if c = a then b else c) :: mapChar a b s := rfl

theorem mapChar_append (a b : Char) (s t : GoString) :
    mapChar a b (s ++ t) = mapChar a b s ++ mapChar a b t := by
  simp [mapChar]

theorem mapChar_of_not_mem (a b : Char) (s : GoString) (h : a ∉ s) : mapChar a b s = s := by
  induction s with
  | nil => rfl
  | cons c cs ih =>
    simp only [List.mem_cons, not_or] at h
    rw [mapChar_cons, ih h.2, if_neg (fun e => h.1 e.symm)]

theorem not_mem_mapChar (a b : Char) (s : GoString) (h : a ≠ b) : a ∉ mapChar a b s := by
  induction s with
  | nil => simp [mapChar]
  | cons c cs ih =>
    rw [mapChar_cons, List.mem_cons, not_or]
    refine ⟨?_, ih⟩
    by_cases hc : c = a
    · simpa [hc] using h
    · simpa [hc] using fun e : a = c => hc e.symm

theorem replaceScan_char (a b : Char) (s : GoString) :
    replaceScan [a] [b] 0 s = mapChar a b s := by
  induction s with
  | nil => simp [replaceScan, mapChar]
  | cons c cs ih =>
    by_cases h : c = a
    · subst h
      have hp : [c].isPrefixOf (c :: cs) = true := by simp [List.isPrefixOf]
      simp only [replaceScan, hp, if_true, List.length_singleton, Nat.sub_self, ih]
      simp [mapChar]
    · rw [replaceScan_cons_of_ne a [] [b] c cs (fun h2 => h h2.symm), ih]
      simp [mapChar, h]

/-- The body of `macToWindowsPath` before the trim, with the library calls
resolved. -/
theorem macBody_eq (x : GoString) :
    macBody x = mapChar '/' '\\'
      (replaceScan slash2 filePrefix 0 (replaceScan smbPrefix filePrefix 0 x)) := by
  simp only [macBody]
  rw [replaceAll_eq_scan _ _ _ (by decide) (by decide),
    replaceAll_eq_scan _ _ _ (by decide) (by decide)]
  simp only [slash, backslash]
  rw [join_split_char]

theorem macToWindowsPath_eq (x : GoString) :
    macToWindowsPath x = dropTrailing '\\' (macBody x) := by
  simp only [macToWindowsPath, macBody, backslash]
  rw [trimRight_char]

/-- The body of `windowsToMacPath` with the library calls resolved. -/
theorem windowsToMacPath_eq (x : GoString) :
    windowsToMacPath x = mapChar '\\' '/'
      (replaceScan backslash2 smbPrefix 0
        (replaceScan filePrefix smbPrefix 0 (mapChar '/' '\\' x))) := by
  simp only [windowsToMacPath]
  rw [replaceAll_eq_scan _ _ _ (by decide) (by decide),
    replaceAll_eq_scan _ _ _ (by decide) (by decide),
    replaceAll_eq_scan _ _ _ (by decide) (by decide)]
  simp only [slash, backslash]
  rw [join_split_char, replaceScan_char]

/-- A leading `smb:` prefix becomes a leading `file:` prefix, and the rest is
converted on its own. -/
theorem macBody_smbPrefix (r : GoString) : macBody (smbPrefix ++ r) = filePrefix ++ macBody r := by
  rw [macBody_eq, macBody_eq, replaceScan_append _ _ _ (by decide)]
  simp only [slash2, filePrefix, List.cons_append, List.nil_append]
  repeat rw [replaceScan_cons_of_ne _ _ _ _ _ (by decide)]
  rfl

/-- Two leading slashes become a leading `file:` prefix, and the rest is
converted on its own. -/
theorem macBody_slash2 (r : GoString) : macBody (slash2 ++ r) = filePrefix ++ macBody r := by
  rw [macBody_eq, macBody_eq]
  have h : replaceScan smbPrefix filePrefix 0 (slash2 ++ r) =
      slash2 ++ replaceScan smbPrefix filePrefix 0 r := by
    simp only [slash2, smbPrefix, List.cons_append, List.nil_append]
    repeat rw [replaceScan_cons_of_ne _ _ _ _ _ (by decide)]
  rw [h, replaceScan_append _ _ _ (by decide), mapChar_append]
  rfl

/-- Without two consecutive slashes the body only turns `/` into backslash. -/
theorem macBody_of_not_contains (r : GoString) (h : contains r slash2 = false) :
    macBody r = mapChar '/' '\\' r := by
  have h1 : contains r smbPrefix = false :=
    contains_false_of_isInfix r slash2 smbPrefix ⟨['s', 'm', 'b', ':'], [], rfl⟩ h
  rw [macBody_eq, replaceScan_of_not_contains _ _ _ h1, replaceScan_of_not_contains _ _ _ h]

theorem not_mem_macBody (x : GoString) : '/' ∉ macBody x := by
  rw [macBody_eq]; exact not_mem_mapChar _ _ _ (by decide)

/-- A leading `file:` prefix becomes a leading `smb:` prefix, and the rest is
converted on its own. -/
theorem windowsToMacPath_filePrefix (r : GoString) :
    windowsToMacPath (filePrefix ++ r) = smbPrefix ++ windowsToMacPath r := by
  have h : mapChar '/' '\\' (filePrefix ++ r) = filePrefix ++ mapChar '/' '\\' r := by
    rw [mapChar_append]; rfl
  rw [windowsToMacPath_eq, windowsToMacPath_eq, h, replaceScan_append _ _ _ (by decide)]
  simp only [backslash2, smbPrefix, List.cons_append, List.nil_append]
  repeat rw [replaceScan_cons_of_ne _ _ _ _ _ (by decide)]
  rfl

/-- Two leading backslashes become a leading `smb:` prefix, and the rest is
converted on its own. -/
theorem windowsToMacPath_backslash2 (r : GoString) :
    windowsToMacPath (backslash2 ++ r) = smbPrefix ++ windowsToMacPath r := by
  have h : mapChar '/' '\\' (backslash2 ++ r) = backslash2 ++ mapChar '/' '\\' r := by
    rw [mapChar_append]; rfl
  have h2 : ∀ z, replaceScan filePrefix smbPrefix 0 (backslash2 ++ z) =
      backslash2 ++ replaceScan filePrefix smbPrefix 0 z := by
    intro z
    simp only [backslash2, filePrefix, List.cons_append, List.nil_append]
    repeat rw [replaceScan_cons_of_ne _ _ _ _ _ (by decide)]
  rw [windowsToMacPath_eq, windowsToMacPath_eq, h, h2, replaceScan_append _ _ _ (by decide),
    mapChar_append]
  rfl

theorem not_mem_windowsToMacPath (x : GoString) : '\\' ∉ windowsToMacPath x := by
  rw [windowsToMacPath_eq]; exact not_mem_mapChar _ _ _ (by decide)

theorem isSep_of_ite_eq (a b c : Char) (ha : isSep a = true) (hb : isSep b = true)
    (h : (if c = a then b else c) = b) : isSep c = true := by
  by_cases hc : c = a
  · rw [hc]; exact ha
  · simp only [hc, if_false] at h
    rw [h]; exact hb

/-- Without two neighbouring separators, turning one separator into the other
leaves no doubled separator. -/
theorem not_contains_double_of_adjSep (a b : Char) (ha : isSep a = true) (hb : isSep b = true)
    (r : GoString) (h : adjSep r = false) : contains (mapChar a b r) [b, b] = false := by
  induction r with
  | nil => rfl
  | cons c cs ih =>
    cases cs with
    | nil =>
      simp [mapChar, contains, List.isPrefixOf]
    | cons d ds =>
      simp only [adjSep, Bool.or_eq_false_iff] at h
      have ih2 := ih h.2
      rw [mapChar_cons] at ih2
      rw [mapChar_cons, mapChar_cons]
      simp only [contains, Bool.or_eq_false_iff] at ih2 ⊢
      refine ⟨?_, ih2.1, ih2.2⟩
      rw [Bool.eq_false_iff]
      intro hp
      simp only [List.isPrefixOf, Bool.and_eq_true, beq_iff_eq, Bool.and_true] at hp
      have hc := isSep_of_ite_eq a b c ha hb hp.1.symm
      have hd := isSep_of_ite_eq a b d ha hb hp.2.symm
      simp [hc, hd] at h

/-- Without two neighbouring separators `windowsToMacPath` only turns
backslash into `/`. -/
theorem windowsToMacPath_of_adjSep (r : GoString) (h : adjSep r = false) :
    windowsToMacPath r = mapChar '\\' '/' r := by
  have h2 : contains (mapChar '/' '\\' r) backslash2 = false :=
    not_contains_double_of_adjSep '/' '\\' (by decide) (by decide) r h
  have h3 : contains (mapChar '/' '\\' r) filePrefix = false :=
    contains_false_of_isInfix _ backslash2 filePrefix ⟨fileColon, [], rfl⟩ h2
  rw [windowsToMacPath_eq, replaceScan_of_not_contains _ _ _ h3,
    replaceScan_of_not_contains _ _ _ h2]
  induction r with
  | nil => rfl
  | cons c cs ih =>
    have hcs : adjSep cs = false := by
      cases cs with
      | nil => rfl
      | cons d ds =>
        simp only [adjSep, Bool.or_eq_false_iff] at h
        exact h.2
    have a2 := not_contains_double_of_adjSep '/' '\\' (by decide) (by decide) cs hcs
    have a3 := contains_false_of_isInfix _ backslash2 filePrefix ⟨fileColon, [], rfl⟩ a2
    rw [mapChar_cons, mapChar_cons, mapChar_cons, ih hcs a2 a3]
    congr 1
    by_cases h : c = '/'
    · subst h; decide
    · simp [h]

/-- C4: for `r` without two consecutive slashes, `smb:` + two slashes + `r`
converts to `file:` + two backslashes + `r` with each `/` turned into a
backslash, with the trailing backslashes of the whole removed. -/
theorem macToWindowsPath_smb (r : GoString) (h : contains r slash2 = false) :
    macToWindowsPath (smbPrefix ++ r) =
      dropTrailing '\\' (filePrefix ++ mapChar '/' '\\' r) := by
  rw [macToWindowsPath_eq, macBody_smbPrefix, macBody_of_not_contains r h]

theorem macToWindowsPath_smb_witness :
    macToWindowsPath "smb://example.corp/_path/folder/etc/".toList =
      "file:\\\\example.corp\\_path\\folder\\etc".toList :=
  (macToWindowsPath_smb "example.corp/_path/folder/etc/".toList (by decide)).trans (by decide)

/-- C5: `file:` + two separators + `r`, where `r` has no two neighbouring
separators, converts to `smb:` + two slashes + `r` with each backslash turned
into `/`. -/
theorem windowsToMacPath_file (a b : Char) (r : GoString) (ha : isSep a = true)
    (hb : isSep b = true) (h : adjSep r = false) :
    windowsToMacPath (fileColon ++ [a] ++ [b] ++ r) = smbPrefix ++ mapChar '\\' '/' r := by
  have h1 : mapChar '/' '\\' (fileColon ++ [a] ++ [b] ++ r) =
      mapChar '/' '\\' (filePrefix ++ r) := by
    have e1 : (if a = '/' then '\\' else a) = '\\' := by
      simp only [isSep, Bool.or_eq_true, beq_iff_eq] at ha
      rcases ha with rfl | rfl <;> decide
    have e2 : (if b = '/' then '\\' else b) = '\\' := by
      simp only [isSep, Bool.or_eq_true, beq_iff_eq] at hb
      rcases hb with rfl | rfl <;> decide
    rw [mapChar_append, mapChar_append, mapChar_append, mapChar_append]
    simp only [mapChar, List.map_cons, List.map_nil, e1, e2]
    rfl
  have h2 : windowsToMacPath (fileColon ++ [a] ++ [b] ++ r) =
      windowsToMacPath (filePrefix ++ r) := by
    rw [windowsToMacPath_eq, windowsToMacPath_eq, h1]
  rw [h2, windowsToMacPath_filePrefix, windowsToMacPath_of_adjSep r h]

theorem windowsToMacPath_file_witness :
    windowsToMacPath "file://example.corp/_path\\folder/etc/".toList =
      "smb://example.corp/_path/folder/etc/".toList :=
  (windowsToMacPath_file '/' '/' "example.corp/_path\\folder/etc/".toList
    (by decide) (by decide) (by decide)).trans (by decide)

theorem dropTrailing_append (a : Char) (p s : GoString) :
    dropTrailing a (p ++ s) =
      if dropTrailing a s = [] then dropTrailing a p else p ++ dropTrailing a s := by
  simp only [dropTrailing, List.reverse_append, List.dropWhile_append, List.isEmpty_eq_true,
    List.reverse_eq_nil_iff]
  split <;> simp

/-- A prefix that does not end with `a` is out of reach of the trim. -/
theorem dropTrailing_append_of_last (a : Char) (p s : GoString)
    (h : dropTrailing a p = p) :
    dropTrailing a (p ++ s) = p ++ dropTrailing a s := by
  rw [dropTrailing_append]
  split
  · next h0 => rw [h0, h]; simp
  · rfl

theorem adjSep_of_not_contains (r : GoString) (h1 : contains r slash = false)
    (h2 : contains r backslash2 = false) : adjSep r = false := by
  induction r with
  | nil => rfl
  | cons c cs ih =>
    cases cs with
    | nil => rfl
    | cons d ds =>
      simp only [contains, Bool.or_eq_false_iff] at h1 h2
      have ih2 := ih (by simpa [contains] using h1.2) (by simpa [contains] using h2.2)
      simp only [adjSep, Bool.or_eq_false_iff]
      refine ⟨?_, ih2⟩
      have hc : c ≠ '/' := by
        intro e; subst e
        simp [slash, List.isPrefixOf] at h1
      have hd : d ≠ '/' := by
        intro e; subst e
        simp [slash, List.isPrefixOf] at h1
      rw [Bool.eq_false_iff]
      intro hs
      simp only [isSep, Bool.and_eq_true, Bool.or_eq_true, beq_iff_eq, hc, hd, false_or] at hs
      have := h2.1
      simp [backslash2, List.isPrefixOf, hs.1, hs.2] at this

theorem mapChar_mapChar_cancel (a b : Char) (r : GoString) (h : b ∉ r) :
    mapChar b a (mapChar a b r) = r := by
  induction r with
  | nil => rfl
  | cons c cs ih =>
    simp only [List.mem_cons, not_or] at h
    rw [mapChar_cons, mapChar_cons, ih h.2]
    congr 1
    by_cases hc : c = a
    · simp [hc]
    · simp only [hc, if_false]
      exact if_neg (fun e => h.1 e.symm)

/-- The Mac form of a path without `/` and without doubled backslashes goes
back to the path behind a `file:` prefix, trimmed. -/
theorem macToWindowsPath_smb_windowsToMacPath (r : GoString) (h1 : contains r slash = false)
    (h2 : contains r backslash2 = false) :
    macToWindowsPath (smbPrefix ++ windowsToMacPath r) =
      dropTrailing '\\' (filePrefix ++ r) := by
  have ha := adjSep_of_not_contains r h1 h2
  have hm : contains (mapChar '\\' '/' r) slash2 = false :=
    not_contains_double_of_adjSep '\\' '/' (by decide) (by decide) r ha
  rw [windowsToMacPath_of_adjSep r ha, macToWindowsPath_eq, macBody_smbPrefix,
    macBody_of_not_contains _ hm,
    mapChar_mapChar_cancel '\\' '/' r (not_mem_of_not_contains '/' r h1)]

/-- C6, as the code has it: a well-formed path behind `file:` + two
backslashes comes back as itself without its trailing backslashes; a
well-formed path behind two backslashes alone comes back with `file:` put in
front, without its trailing backslashes. -/
theorem roundTrip_windows (r : GoString) (h1 : contains r slash = false)
    (h2 : contains r backslash2 = false) (_h3 : contains r fileColon = false) :
    macToWindowsPath (windowsToMacPath (filePrefix ++ r)) =
        dropTrailing '\\' (filePrefix ++ r) ∧
      macToWindowsPath (windowsToMacPath (backslash2 ++ r)) =
        fileColon ++ dropTrailing '\\' (backslash2 ++ r) := by
  refine ⟨?_, ?_⟩
  · rw [windowsToMacPath_filePrefix, macToWindowsPath_smb_windowsToMacPath r h1 h2]
  · rw [windowsToMacPath_backslash2, macToWindowsPath_smb_windowsToMacPath r h1 h2,
      ← dropTrailing_append_of_last '\\' fileColon _ (by decide)]
    rfl

theorem roundTrip_windows_witness :
    macToWindowsPath (windowsToMacPath "file:\\\\host\\share\\".toList) =
        "file:\\\\host\\share".toList ∧
      macToWindowsPath (windowsToMacPath "\\\\host\\share\\".toList) =
        "file:\\\\host\\share".toList :=
  (roundTrip_windows "host\\share\\".toList (by decide) (by decide) (by decide)).imp
    (fun h => h.trans (by decide)) (fun h => h.trans (by decide))

/-- C6 as stated fails: a path behind two backslashes alone, with no `/`, no
further doubled backslash and no `file:` text, does not come back as itself. -/
theorem roundTrip_unc_counterexample :
    hasPrefix "\\\\host\\share".toList backslash2 = true ∧
      contains "\\\\host\\share".toList slash = false ∧
      contains ("\\\\host\\share".toList.drop 2) backslash2 = false ∧
      contains "\\\\host\\share".toList fileColon = false ∧
      macToWindowsPath (windowsToMacPath "\\\\host\\share".toList) ≠
        dropTrailing '\\' "\\\\host\\share".toList := by
  decide

/-! ## `convertLink` -/

/-- Trimming reaches behind a prefix that neither starts nor ends with white
space only from the right. -/
theorem trimSpace_append (p r : GoString) (hne : p ≠ [])
    (h1 : ∀ c ∈ p.head?, isSpace c = false) (h2 : ∀ c ∈ p.reverse.head?, isSpace c = false) :
    trimSpace (p ++ r) = p ++ (r.reverse.dropWhile isSpace).reverse := by
  have a : (p ++ r).dropWhile isSpace = p ++ r := by
    apply dropWhile_id_of_head
    cases p with
    | nil => exact absurd rfl hne
    | cons c cs => simpa using h1
  have b : p.reverse.dropWhile isSpace = p.reverse := dropWhile_id_of_head _ _ h2
  rw [trimSpace_eq, a, List.reverse_append, List.dropWhile_append]
  split
  · next h0 =>
    rw [List.isEmpty_eq_true] at h0
    rw [h0, b]; simp
  · simp

theorem mem_reverse_dropWhile (p : Char → Bool) (r : GoString) (c : Char)
    (h : c ∈ (r.reverse.dropWhile p).reverse) : c ∈ r := by
  have := (dropWhile_suffix p r.reverse).subset (List.mem_reverse.mp h)
  exact List.mem_reverse.mp this

theorem hasPrefix_append (p r : GoString) : hasPrefix (p ++ r) p = true := by
  rw [hasPrefix, List.isPrefixOf_iff_prefix]; exact ⟨r, rfl⟩

theorem eq_append_of_hasPrefix (s p : GoString) (h : hasPrefix s p = true) :
    ∃ r, s = p ++ r := by
  rw [hasPrefix, List.isPrefixOf_iff_prefix] at h
  obtain ⟨r, hr⟩ := h
  exact ⟨r, hr.symm⟩

/-- What a tag of 1 says about the input. -/
theorem checkString_windows (s : GoString) (h : (checkString s).1 = 1) :
    checkString s = (1, trimSpace s) ∧
      (hasPrefix (trimSpace s) filePrefix = true ∨ hasPrefix (trimSpace s) backslash2 = true) := by
  rw [checkString_eq] at h ⊢
  split_ifs at h ⊢ with h1 h2 h3 <;> simp_all

/-- What a tag of -1 says about the input. -/
theorem checkString_mac (s : GoString) (h : (checkString s).1 = -1) :
    checkString s = (-1, trimSpace s) ∧
      (hasPrefix (trimSpace s) smbPrefix = true ∨ hasPrefix (trimSpace s) slash2 = true) := by
  rw [checkString_eq] at h ⊢
  split_ifs at h ⊢ with h1 h2 h3
  simp_all

/-- A string that starts with the `smb:` prefix and has no backslash has tag
-1. -/
theorem checkString_of_smbPrefix (r : GoString) (h : '\\' ∉ r) :
    (checkString (smbPrefix ++ r)).1 = -1 := by
  have ht := trimSpace_append smbPrefix r (by decide) (by decide) (by decide)
  have hm : '\\' ∉ smbPrefix ++ (r.reverse.dropWhile isSpace).reverse := by
    intro hc
    rcases List.mem_append.mp hc with hc | hc
    · revert hc; decide
    · exact h (mem_reverse_dropWhile _ _ _ hc)
  have h1 : contains (trimSpace (smbPrefix ++ r)) backslash2 = false := by
    rw [ht]; exact not_contains_of_not_mem '\\' _ _ (by decide) hm
  have h2 : hasPrefix (trimSpace (smbPrefix ++ r)) filePrefix = false := by
    rw [ht]; simp [hasPrefix, smbPrefix, filePrefix, List.isPrefixOf]
  have h3 : hasPrefix (trimSpace (smbPrefix ++ r)) backslash2 = false := by
    rw [ht]; simp [hasPrefix, smbPrefix, backslash2, List.isPrefixOf]
  have h4 : hasPrefix (trimSpace (smbPrefix ++ r)) smbPrefix = true := by
    rw [ht]; exact hasPrefix_append _ _
  rw [checkString_eq]
  simp [h1, h2, h3, h4]

/-- A string that starts with the `file:` prefix and has no `/` has tag 1. -/
theorem checkString_of_filePrefix (r : GoString) (h : '/' ∉ r) :
    (checkString (filePrefix ++ r)).1 = 1 := by
  have ht := trimSpace_append filePrefix r (by decide) (by decide) (by decide)
  have hm : '/' ∉ filePrefix ++ (r.reverse.dropWhile isSpace).reverse := by
    intro hc
    rcases List.mem_append.mp hc with hc | hc
    · revert hc; decide
    · exact h (mem_reverse_dropWhile _ _ _ hc)
  have h1 : contains (trimSpace (filePrefix ++ r)) slash = false := by
    rw [ht]; exact not_contains_of_not_mem '/' _ _ (by decide) hm
  have h4 : hasPrefix (trimSpace (filePrefix ++ r)) filePrefix = true := by
    rw [ht]; exact hasPrefix_append _ _
  rw [checkString_eq]
  simp [h1, h4]

/-- The three return statements of `convertLink`, by the tag. -/
theorem convertLink_eq (s : GoString) :
    convertLink s =
      if (checkString s).1 = 1 then
        (AppTitle ++ " - Converted Windows to Mac Path: \n".toList ++
          windowsToMacPath (checkString s).2, windowsToMacPath (checkString s).2)
      else if (checkString s).1 = -1 then
        (AppTitle ++ " - Converted Mac to Windows Path: \n".toList ++
          macToWindowsPath (checkString s).2, macToWindowsPath (checkString s).2)
      else
        (AppTitle ++ " - No valid link detected!".toList ++
          (if contains (checkString s).2 fileColon = true then extraInfoText else []), []) := by
  rcases h : checkString s with ⟨tag, str⟩
  simp only [convertLink, h]

/-- The Mac form of a Windows link starts with the `smb:` prefix. -/
theorem windowsToMacPath_of_hasPrefix (t : GoString)
    (h : hasPrefix t filePrefix = true ∨ hasPrefix t backslash2 = true) :
    ∃ r, windowsToMacPath t = smbPrefix ++ r := by
  rcases h with h | h
  · obtain ⟨r, rfl⟩ := eq_append_of_hasPrefix _ _ h
    exact ⟨_, windowsToMacPath_filePrefix r⟩
  · obtain ⟨r, rfl⟩ := eq_append_of_hasPrefix _ _ h
    exact ⟨_, windowsToMacPath_backslash2 r⟩

/-- The untrimmed Windows form of a Mac link starts with the `file:` prefix. -/
theorem macBody_of_hasPrefix (t : GoString)
    (h : hasPrefix t smbPrefix = true ∨ hasPrefix t slash2 = true) :
    ∃ r, macBody t = filePrefix ++ r := by
  rcases h with h | h
  · obtain ⟨r, rfl⟩ := eq_append_of_hasPrefix _ _ h
    exact ⟨_, macBody_smbPrefix r⟩
  · obtain ⟨r, rfl⟩ := eq_append_of_hasPrefix _ _ h
    exact ⟨_, macBody_slash2 r⟩

/-- C7: the converted value of an input with tag 1 has tag -1; it starts with
the `smb:` prefix and holds no backslash. -/
theorem convertLink_windows_is_mac (s : GoString) (h : (checkString s).1 = 1) :
    (checkString (convertLink s).2).1 = -1 ∧
      hasPrefix (convertLink s).2 smbPrefix = true ∧ '\\' ∉ (convertLink s).2 := by
  obtain ⟨hc, hp⟩ := checkString_windows s h
  have hv : (convertLink s).2 = windowsToMacPath (trimSpace s) := by
    rw [convertLink_eq, if_pos h, hc]
  have hb := not_mem_windowsToMacPath (trimSpace s)
  obtain ⟨r, hr⟩ := windowsToMacPath_of_hasPrefix _ hp
  rw [hv]
  refine ⟨?_, ?_, hb⟩
  · rw [hr] at hb ⊢
    exact checkString_of_smbPrefix r (fun hm => hb (List.mem_append_right _ hm))
  · rw [hr]; exact hasPrefix_append _ _

theorem convertLink_windows_is_mac_witness :
    (checkString (convertLink " \\\\host\\share\\ ".toList).2).1 = -1 ∧
      hasPrefix (convertLink " \\\\host\\share\\ ".toList).2 smbPrefix = true ∧
      '\\' ∉ (convertLink " \\\\host\\share\\ ".toList).2 :=
  convertLink_windows_is_mac " \\\\host\\share\\ ".toList (by decide)

theorem not_mem_dropTrailing (a c : Char) (s : GoString) (h : c ∉ s) :
    c ∉ dropTrailing a s := by
  intro hc
  exact h (mem_reverse_dropWhile _ _ _ hc)

/-- The Windows form of a Mac link is the bare `file:`, or starts with the
`file:` prefix and holds no `/`. -/
theorem macToWindowsPath_of_hasPrefix (t : GoString)
    (h : hasPrefix t smbPrefix = true ∨ hasPrefix t slash2 = true) :
    macToWindowsPath t = fileColon ∨
      ∃ r, macToWindowsPath t = filePrefix ++ r ∧ '/' ∉ r := by
  obtain ⟨r, hr⟩ := macBody_of_hasPrefix t h
  have hs : '/' ∉ r := by
    have := not_mem_macBody t
    rw [hr] at this
    exact fun hm => this (List.mem_append_right _ hm)
  rw [macToWindowsPath_eq, hr, dropTrailing_append]
  split
  · left; decide
  · right; exact ⟨_, rfl, not_mem_dropTrailing _ _ _ hs⟩

/-- C8, as the code has it: the converted value of an input with tag -1 has
tag 1 unless it is the bare `file:`, which has tag 0. -/
theorem convertLink_mac_is_windows (s : GoString) (h : (checkString s).1 = -1) :
    ((convertLink s).2 ≠ fileColon → (checkString (convertLink s).2).1 = 1) ∧
      ((convertLink s).2 = fileColon → (checkString (convertLink s).2).1 = 0) := by
  obtain ⟨hc, hp⟩ := checkString_mac s h
  have hv : (convertLink s).2 = macToWindowsPath (trimSpace s) := by
    rw [convertLink_eq, if_neg (by rw [h]; decide), if_pos h, hc]
  rw [hv]
  refine ⟨?_, ?_⟩
  · intro hne
    rcases macToWindowsPath_of_hasPrefix _ hp with h0 | ⟨r, hr, hs⟩
    · exact absurd h0 hne
    · rw [hr]; exact checkString_of_filePrefix r hs
  · intro h0
    rw [h0]; decide

theorem convertLink_mac_is_windows_witness :
    (checkString (convertLink "  smb://host/share/".toList).2).1 = 1 ∧
      (checkString (convertLink " smb:///".toList).2).1 = 0 :=
  ⟨(convertLink_mac_is_windows "  smb://host/share/".toList (by decide)).1 (by decide),
    (convertLink_mac_is_windows " smb:///".toList (by decide)).2 (by decide)⟩

/-- C8 as stated fails: two slashes alone have tag -1 and convert to the bare
`file:`, which has tag 0. -/
theorem convertLink_mac_counterexample :
    (checkString "//".toList).1 = -1 ∧ (convertLink "//".toList).2 = "file:".toList ∧
      (checkString (convertLink "//".toList).2).1 ≠ 1 := by
  decide

/-- C9: on a recognized input `convertLink` returns the header of the
direction, then the converted value, and that value again as its second
result; the string converted is the trimmed input. -/
theorem convertLink_recognized (s t : GoString) :
    (checkString s = (1, t) →
      t = trimSpace s ∧
      convertLink s = ("LinkGopher - Converted Windows to Mac Path: \n".toList ++
        windowsToMacPath t, windowsToMacPath t)) ∧
    (checkString s = (-1, t) →
      t = trimSpace s ∧
      convertLink s = ("LinkGopher - Converted Mac to Windows Path: \n".toList ++
        macToWindowsPath t, macToWindowsPath t)) := by
  refine ⟨?_, ?_⟩
  · intro h
    have h1 : (checkString s).1 = 1 := by rw [h]
    have h2 := (checkString_windows s h1).1
    rw [h] at h2
    refine ⟨(Prod.mk.inj h2).2, ?_⟩
    rw [convertLink_eq, if_pos h1, h]
    rfl
  · intro h
    have h1 : (checkString s).1 = -1 := by rw [h]
    have h2 := (checkString_mac s h1).1
    rw [h] at h2
    refine ⟨(Prod.mk.inj h2).2, ?_⟩
    rw [convertLink_eq, if_neg (by rw [h1]; decide), if_pos h1, h]
    rfl

theorem convertLink_recognized_witness :
    convertLink " file:\\\\host\\share ".toList =
        ("LinkGopher - Converted Windows to Mac Path: \nsmb://host/share".toList,
          "smb://host/share".toList) ∧
      convertLink " smb://host/share/ ".toList =
        ("LinkGopher - Converted Mac to Windows Path: \nfile:\\\\host\\share".toList,
          "file:\\\\host\\share".toList) :=
  ⟨(((convertLink_recognized " file:\\\\host\\share ".toList "file:\\\\host\\share".toList).1
      (by decide)).2).trans (by decide),
    (((convertLink_recognized " smb://host/share/ ".toList "smb://host/share/".toList).2
      (by decide)).2).trans (by decide)⟩

/-- C10: on an input with tag 0 the converted value is empty and the message
starts with the failure header. -/
theorem convertLink_unrecognized (s : GoString) (h : (checkString s).1 = 0) :
    (convertLink s).2 = [] ∧
      hasPrefix (convertLink s).1 "LinkGopher - No valid link detected!".toList = true := by
  rw [convertLink_eq, if_neg (by rw [h]; decide), if_neg (by rw [h]; decide)]
  refine ⟨rfl, ?_⟩
  exact hasPrefix_append _ _

theorem convertLink_unrecognized_witness :
    ((convertLink "not a link".toList).2 = [] ∧
        hasPrefix (convertLink "not a link".toList).1
          "LinkGopher - No valid link detected!".toList = true) ∧
      ((convertLink [] ).2 = [] ∧
        hasPrefix (convertLink []).1 "LinkGopher - No valid link detected!".toList = true) ∧
      ((convertLink "https://example.com".toList).2 = [] ∧
        hasPrefix (convertLink "https://example.com".toList).1
          "LinkGopher - No valid link detected!".toList = true) :=
  ⟨convertLink_unrecognized "not a link".toList (by decide),
    convertLink_unrecognized [] (by decide),
    convertLink_unrecognized "https://example.com".toList (by decide)⟩

/-! ## The failure message -/

/-- With tag 0 the string that `checkString` returns is the input itself. -/
theorem checkString_zero (s : GoString) (h : (checkString s).1 = 0) :
    checkString s = (0, s) := by
  rw [checkString_eq] at h ⊢
  split_ifs at h ⊢ with h1 h2 h3 <;> simp_all

theorem tag_cases (s : GoString) :
    (checkString s).1 = 0 ∨ (checkString s).1 = 1 ∨ (checkString s).1 = -1 := by
  rw [checkString_eq]
  split_ifs <;> simp

/-- C11: with tag 0 the message is the failure header followed by the quoting
hint exactly when the input contains `file:`, and the bare failure header when
it does not. -/
theorem convertLink_hint (s : GoString) (h : (checkString s).1 = 0) :
    ((convertLink s).1 = "LinkGopher - No valid link detected!".toList ++ extraInfoText ↔
        contains s fileColon = true) ∧
      (contains s fileColon = false →
        (convertLink s).1 = "LinkGopher - No valid link detected!".toList) ∧
      hasPrefix extraInfoText
        "\nNote: When passing a windows (file:) path as an argument".toList = true := by
  have hz := checkString_zero s h
  have hm : (convertLink s).1 = "LinkGopher - No valid link detected!".toList ++
      (if contains s fileColon = true then extraInfoText else []) := by
    rw [convertLink_eq, if_neg (by rw [h]; decide), if_neg (by rw [h]; decide), hz]
    rfl
  refine ⟨?_, ?_, by decide⟩
  · rw [hm]
    constructor
    · intro he
      by_contra hc
      rw [if_neg hc] at he
      have hne : extraInfoText ≠ [] := by decide
      exact hne (List.append_cancel_left he).symm
    · intro hc
      rw [if_pos hc]
  · intro hc
    rw [hm, hc]
    simp

theorem convertLink_hint_witness :
    ((convertLink "file:\\not-escaped".toList).1 =
          "LinkGopher - No valid link detected!".toList ++ extraInfoText ↔
        contains "file:\\not-escaped".toList fileColon = true) ∧
      (contains "file:\\not-escaped".toList fileColon = false →
        (convertLink "file:\\not-escaped".toList).1 =
          "LinkGopher - No valid link detected!".toList) ∧
      hasPrefix extraInfoText
        "\nNote: When passing a windows (file:) path as an argument".toList = true :=
  convertLink_hint "file:\\not-escaped".toList (by decide)

/-! ## The two spellings of each prefix -/

/-- C14: a UNC path converts the same with and without `file:` in front. -/
theorem windowsToMacPath_file_eq_unc (r : GoString) :
    windowsToMacPath (fileColon ++ backslash2 ++ r) = windowsToMacPath (backslash2 ++ r) := by
  have h : fileColon ++ backslash2 ++ r = filePrefix ++ r := rfl
  rw [h, windowsToMacPath_filePrefix, windowsToMacPath_backslash2]

/-- C15: a share path converts the same with and without `smb:` in front. -/
theorem macToWindowsPath_smb_eq_slash2 (r : GoString) :
    macToWindowsPath ("smb:".toList ++ slash2 ++ r) = macToWindowsPath (slash2 ++ r) := by
  have h : "smb:".toList ++ slash2 ++ r = smbPrefix ++ r := rfl
  rw [h, macToWindowsPath_eq, macToWindowsPath_eq, macBody_smbPrefix, macBody_slash2]

/-- C16 fails on the code: a Mac link with a single backslash holds both a `/`
and a backslash, and `checkString` gives it tag -1, not 0. -/
theorem checkString_single_backslash :
    contains "smb://host/share\\dir".toList slash = true ∧
      contains "smb://host/share\\dir".toList backslash = true ∧
      (checkString "smb://host/share\\dir".toList).1 = -1 ∧
      (checkString "normal string/with/forward\\and\\backslashes".toList).1 = 0 := by
  decide

/-! ## The converted value as a success flag -/

/-- C18: the converted value is empty exactly when the tag is 0. -/
theorem convertLink_empty_iff (s : GoString) :
    (convertLink s).2 = [] ↔ (checkString s).1 = 0 := by
  rcases tag_cases s with h | h | h
  · simp only [h, iff_true]
    rw [convertLink_eq, if_neg (by rw [h]; decide), if_neg (by rw [h]; decide)]
  · obtain ⟨hc, hp⟩ := checkString_windows s h
    obtain ⟨r, hr⟩ := windowsToMacPath_of_hasPrefix _ hp
    have hv : (convertLink s).2 = smbPrefix ++ r := by
      rw [convertLink_eq, if_pos h, hc]; exact hr
    rw [hv, h]
    simp [smbPrefix]
  · obtain ⟨hc, hp⟩ := checkString_mac s h
    have hv : (convertLink s).2 = macToWindowsPath (trimSpace s) := by
      rw [convertLink_eq, if_neg (by rw [h]; decide), if_pos h, hc]
    rw [hv, h]
    rcases macToWindowsPath_of_hasPrefix _ hp with h0 | ⟨r, hr, _⟩
    · rw [h0]; simp [fileColon]
    · rw [hr]; simp [filePrefix]

/-! ## Round trips -/

/-- C20: Windows to Mac and back gives the `file:` form of the path, without
its trailing backslashes, from either Windows prefix. -/
theorem roundTrip_canonical (r : GoString) (h1 : contains r slash = false)
    (h2 : contains r backslash2 = false) :
    macToWindowsPath (windowsToMacPath (filePrefix ++ r)) =
        dropTrailing '\\' (fileColon ++ backslash2 ++ r) ∧
      macToWindowsPath (windowsToMacPath (backslash2 ++ r)) =
        dropTrailing '\\' (fileColon ++ backslash2 ++ r) := by
  have h : fileColon ++ backslash2 ++ r = filePrefix ++ r := rfl
  rw [h, windowsToMacPath_filePrefix, windowsToMacPath_backslash2,
    macToWindowsPath_smb_windowsToMacPath r h1 h2]
  exact ⟨rfl, rfl⟩

theorem roundTrip_canonical_witness :
    macToWindowsPath (windowsToMacPath "file:\\\\host\\share\\dir\\".toList) =
        "file:\\\\host\\share\\dir".toList ∧
      macToWindowsPath (windowsToMacPath "\\\\host\\share\\dir\\".toList) =
        "file:\\\\host\\share\\dir".toList :=
  (roundTrip_canonical "host\\share\\dir\\".toList (by decide) (by decide)).imp
    (fun h => h.trans (by decide)) (fun h => h.trans (by decide))

theorem adjSep_of_not_contains_slash2 (r : GoString) (h1 : contains r backslash = false)
    (h2 : contains r slash2 = false) : adjSep r = false := by
  induction r with
  | nil => rfl
  | cons c cs ih =>
    cases cs with
    | nil => rfl
    | cons d ds =>
      simp only [contains, Bool.or_eq_false_iff] at h1 h2
      have ih2 := ih (by simpa [contains] using h1.2) (by simpa [contains] using h2.2)
      simp only [adjSep, Bool.or_eq_false_iff]
      refine ⟨?_, ih2⟩
      have hc : c ≠ '\\' := by
        intro e; subst e
        simp [backslash, List.isPrefixOf] at h1
      have hd : d ≠ '\\' := by
        intro e; subst e
        simp [backslash, List.isPrefixOf] at h1
      rw [Bool.eq_false_iff]
      intro hs
      simp only [isSep, Bool.and_eq_true, Bool.or_eq_true, beq_iff_eq, hc, hd, or_false] at hs
      have := h2.1
      simp [slash2, List.isPrefixOf, hs.1, hs.2] at this

theorem dropTrailing_of_getLast (a c : Char) (s : GoString) (h : s.getLast? = some c)
    (hc : c ≠ a) : dropTrailing a s = s := by
  have hh : ∀ x ∈ s.reverse.head?, (fun y => y == a) x = false := by
    intro x hx
    rw [List.head?_reverse, h] at hx
    cases hx
    simpa using hc
  rw [dropTrailing, dropWhile_id_of_head _ _ hh, List.reverse_reverse]

theorem getLast_mapChar (a b : Char) (s : GoString) :
    (mapChar a b s).getLast? = s.getLast?.map (fun c => if c = a then b else c) := by
  rw [mapChar, List.getLast?_map]

/-- C19: Mac to Windows and back is exact for a non-empty `r` without
backslash, without two consecutive slashes and not ending with a slash. -/
theorem roundTrip_mac (r : GoString) (hne : r ≠ []) (h1 : contains r backslash = false)
    (h2 : contains r slash2 = false) (h3 : r.getLast? ≠ some '/') :
    windowsToMacPath (macToWindowsPath (smbPrefix ++ r)) = smbPrefix ++ r := by
  have ha := adjSep_of_not_contains_slash2 r h1 h2
  have hb : '\\' ∉ r := not_mem_of_not_contains '\\' r h1
  obtain ⟨c, hc⟩ : ∃ c, r.getLast? = some c := by
    cases hr : r.getLast? with
    | none => exact absurd (List.getLast?_eq_none_iff.mp hr) hne
    | some c => exact ⟨c, rfl⟩
  have hcs : c ≠ '/' := fun e => h3 (by rw [hc, e])
  have hcb : c ≠ '\\' := fun e => hb (e ▸ List.mem_of_getLast?_eq_some hc)
  have hl : (filePrefix ++ mapChar '/' '\\' r).getLast? = some c := by
    have hm : (mapChar '/' '\\' r).getLast? = some c := by
      rw [getLast_mapChar, hc]; simp [hcs]
    rw [List.getLast?_append, hm]; rfl
  have hd := dropTrailing_of_getLast '\\' c _ hl hcb
  have h4 : contains (mapChar '/' '\\' r) backslash2 = false :=
    not_contains_double_of_adjSep '/' '\\' (by decide) (by decide) r ha
  have h5 : contains (mapChar '/' '\\' r) slash = false :=
    not_contains_of_not_mem '/' _ _ (by decide) (not_mem_mapChar '/' '\\' r (by decide))
  rw [macToWindowsPath_eq, macBody_smbPrefix, macBody_of_not_contains r h2, hd,
    windowsToMacPath_filePrefix,
    windowsToMacPath_of_adjSep _ (adjSep_of_not_contains _ h5 h4),
    mapChar_mapChar_cancel '/' '\\' r hb]

theorem roundTrip_mac_witness :
    windowsToMacPath (macToWindowsPath "smb://example.corp/_path/folder/etc".toList) =
      "smb://example.corp/_path/folder/etc".toList :=
  roundTrip_mac "example.corp/_path/folder/etc".toList (by decide) (by decide) (by decide)
    (by decide)

/-! ## The last character of a conversion -/

theorem replaceScan_ne_nil (old new : GoString) (hn : new ≠ []) (s : GoString) (hs : s ≠ []) :
    replaceScan old new 0 s ≠ [] := by
  cases s with
  | nil => exact absurd rfl hs
  | cons c cs =>
    simp only [replaceScan]
    split
    · simpa using fun h : new = [] => absurd h hn
    · simp

/-- The scan ends with the last character of its input or with the last
character of the replacement. -/
theorem replaceScan_getLast (old new : GoString) (hn : new ≠ []) (s : GoString) :
    ∀ (k : Nat) (x : Char), (replaceScan old new k s).getLast? = some x →
      s.getLast? = some x ∨ new.getLast? = some x := by
  induction s with
  | nil => intro k x h; cases k <;> simp [replaceScan] at h
  | cons c cs ih =>
    intro k x h
    have hcs : cs.getLast? = some x → (c :: cs).getLast? = some x := by
      intro h1
      cases cs with
      | nil => simp at h1
      | cons d ds => rw [List.getLast?_cons_cons]; exact h1
    cases k with
    | succ k =>
      simp only [replaceScan] at h
      rcases ih k x h with h1 | h1
      · exact Or.inl (hcs h1)
      · exact Or.inr h1
    | zero =>
      simp only [replaceScan] at h
      split at h
      · rw [List.getLast?_append] at h
        cases hr : (replaceScan old new (old.length - 1) cs).getLast? with
        | none => rw [hr] at h; exact Or.inr (by simpa using h)
        | some y =>
          rw [hr] at h
          have hxy : y = x := by simpa using h
          subst hxy
          rcases ih _ y hr with h1 | h1
          · exact Or.inl (hcs h1)
          · exact Or.inr h1
      · cases cs with
        | nil =>
          simp only [replaceScan] at h
          exact Or.inl h
        | cons d ds =>
          have hne := replaceScan_ne_nil old new hn (d :: ds) (by simp)
          cases hr : replaceScan old new 0 (d :: ds) with
          | nil => exact absurd hr hne
          | cons e es =>
            rw [hr, List.getLast?_cons_cons, ← hr] at h
            rcases ih 0 x h with h1 | h1
            · exact Or.inl (hcs h1)
            · exact Or.inr h1

/-- C12: an input that ends with a separator converts to a string that ends
with `/`. -/
theorem windowsToMacPath_trailing (x : GoString) (c : Char) (h : x.getLast? = some c)
    (hc : isSep c = true) : (windowsToMacPath x).getLast? = some '/' := by
  have hx : x ≠ [] := by intro e; rw [e] at h; simp at h
  have h1 : (mapChar '/' '\\' x).getLast? = some '\\' := by
    rw [getLast_mapChar, h]
    simp only [isSep, Bool.or_eq_true, beq_iff_eq] at hc
    rcases hc with rfl | rfl <;> rfl
  have hy : mapChar '/' '\\' x ≠ [] := by intro e; rw [e] at h1; simp at h1
  have hz := replaceScan_ne_nil filePrefix smbPrefix (by decide) _ hy
  have hw := replaceScan_ne_nil backslash2 smbPrefix (by decide) _ hz
  obtain ⟨d, hd⟩ : ∃ d, (replaceScan backslash2 smbPrefix 0
      (replaceScan filePrefix smbPrefix 0 (mapChar '/' '\\' x))).getLast? = some d := by
    cases hr : (replaceScan backslash2 smbPrefix 0
        (replaceScan filePrefix smbPrefix 0 (mapChar '/' '\\' x))).getLast? with
    | none => exact absurd (List.getLast?_eq_none_iff.mp hr) hw
    | some d => exact ⟨d, rfl⟩
  have hsep : d = '\\' ∨ d = '/' := by
    rcases replaceScan_getLast backslash2 smbPrefix (by decide) _ 0 d hd with h2 | h2
    · rcases replaceScan_getLast filePrefix smbPrefix (by decide) _ 0 d h2 with h3 | h3
      · rw [h1] at h3; exact Or.inl (Option.some.inj h3).symm
      · exact Or.inr (Option.some.inj h3).symm
    · exact Or.inr (Option.some.inj h2).symm
  rw [windowsToMacPath_eq, getLast_mapChar, hd]
  rcases hsep with rfl | rfl <;> rfl

theorem windowsToMacPath_trailing_witness :
    (windowsToMacPath "file:\\\\example.corp\\_path\\folder\\etc\\".toList).getLast? =
      some '/' :=
  windowsToMacPath_trailing "file:\\\\example.corp\\_path\\folder\\etc\\".toList '\\'
    (by decide) (by decide)

/-! ## A trailing slash -/

theorem replaceScan_cons_of_match (old new : GoString) (c : Char) (cs : GoString)
    (h : old.isPrefixOf (c :: cs) = true) :
    replaceScan old new 0 (c :: cs) = new ++ replaceScan old new (old.length - 1) cs := by
  simp [replaceScan, h]

/-- A pattern that ends with `e` then `a` matches at the front of `t` followed
by `a` only where it matches at the front of `t`, unless `t` ends with `e`. -/
theorem isPrefixOf_concat (pre : GoString) (e a : Char) (t : GoString)
    (ht : t.getLast? ≠ some e) :
    (pre ++ [e, a]).isPrefixOf (t ++ [a]) = (pre ++ [e, a]).isPrefixOf t := by
  rw [Bool.eq_iff_iff, List.isPrefixOf_iff_prefix, List.isPrefixOf_iff_prefix,
    List.prefix_concat_iff]
  constructor
  · rintro (h | h)
    · exfalso
      apply ht
      have h2 : (pre ++ [e]) ++ [a] = t ++ [a] := by simpa using h
      have h3 := List.append_cancel_right h2
      rw [← h3]; simp
    · exact h
  · exact fun h => Or.inr h

/-- Appending `a` to a string that does not end with `e` appends `a` to the
result of the scan, for a pattern that ends with `e` then `a`. -/
theorem replaceScan_concat (pre new : GoString) (e a : Char) (s : GoString) :
    ∀ k : Nat, k ≤ s.length → s.getLast? ≠ some e →
      replaceScan (pre ++ [e, a]) new k (s ++ [a]) =
        replaceScan (pre ++ [e, a]) new k s ++ [a] := by
  induction s with
  | nil =>
    intro k hk _
    have hk0 : k = 0 := by simpa using hk
    subst hk0
    have hp : (pre ++ [e, a]).isPrefixOf [a] = false := by
      rw [Bool.eq_false_iff, Ne, List.isPrefixOf_iff_prefix]
      intro h
      have := h.length_le
      simp at this
    simp [replaceScan, hp]
  | cons c cs ih =>
    intro k hk hl
    have hcs : cs.getLast? ≠ some e := by
      cases cs with
      | nil => simp
      | cons d ds => rw [List.getLast?_cons_cons] at hl; exact hl
    cases k with
    | succ k =>
      simp only [List.cons_append, replaceScan]
      exact ih k (by simpa using hk) hcs
    | zero =>
      have hp := isPrefixOf_concat pre e a (c :: cs) hl
      rw [List.cons_append] at hp ⊢
      by_cases hm : (pre ++ [e, a]).isPrefixOf (c :: cs) = true
      · have hlen : (pre ++ [e, a]).length - 1 ≤ cs.length := by
          have := (List.isPrefixOf_iff_prefix.mp hm).length_le
          rw [List.length_cons] at this
          omega
        rw [replaceScan_cons_of_match _ _ _ _ (hp.trans hm), replaceScan_cons_of_match _ _ _ _ hm,
          ih _ hlen hcs, List.append_assoc]
      · have hm2 : (pre ++ [e, a]).isPrefixOf (c :: cs) = false := Bool.eq_false_iff.mpr hm
        rw [replaceScan_cons_of_no_match _ _ _ _ (hp.trans hm2),
          replaceScan_cons_of_no_match _ _ _ _ hm2, ih 0 (Nat.zero_le _) hcs, List.cons_append]

theorem dropTrailing_concat (a : Char) (s : GoString) :
    dropTrailing a (s ++ [a]) = dropTrailing a s := by
  simp [dropTrailing]

/-- The result of `macToWindowsPath` does not end with a backslash. -/
theorem macToWindowsPath_getLast (x : GoString) :
    (macToWindowsPath x).getLast? ≠ some '\\' := by
  rw [macToWindowsPath_eq, dropTrailing, ← List.head?_reverse, List.reverse_reverse]
  intro h
  have := dropWhile_head_not (fun c => c == '\\') (macBody x).reverse '\\' h
  simp at this

/-- C13: a slash appended to a string that does not end with a slash does not
change the conversion, and no conversion ends with a backslash. -/
theorem macToWindowsPath_trailing (p x : GoString) :
    (p.getLast? ≠ some '/' → macToWindowsPath (p ++ slash) = macToWindowsPath p) ∧
      (macToWindowsPath x).getLast? ≠ some '\\' := by
  refine ⟨?_, macToWindowsPath_getLast x⟩
  intro hp
  have h1 : replaceScan smbPrefix filePrefix 0 (p ++ ['/']) =
      replaceScan smbPrefix filePrefix 0 p ++ ['/'] :=
    replaceScan_concat ['s', 'm', 'b', ':'] filePrefix '/' '/' p 0 (Nat.zero_le _) hp
  have hq : (replaceScan smbPrefix filePrefix 0 p).getLast? ≠ some '/' := by
    intro h
    rcases replaceScan_getLast smbPrefix filePrefix (by decide) p 0 '/' h with h2 | h2
    · exact hp h2
    · revert h2; decide
  have h2 : replaceScan slash2 filePrefix 0 (replaceScan smbPrefix filePrefix 0 p ++ ['/']) =
      replaceScan slash2 filePrefix 0 (replaceScan smbPrefix filePrefix 0 p) ++ ['/'] :=
    replaceScan_concat [] filePrefix '/' '/' _ 0 (Nat.zero_le _) hq
  rw [macToWindowsPath_eq, macToWindowsPath_eq, macBody_eq, macBody_eq, slash, h1, h2,
    mapChar_append]
  exact dropTrailing_concat '\\' _

theorem macToWindowsPath_trailing_witness :
    macToWindowsPath ("smb://example.corp/_path/folder/etc".toList ++ slash) =
      macToWindowsPath "smb://example.corp/_path/folder/etc".toList :=
  (macToWindowsPath_trailing "smb://example.corp/_path/folder/etc".toList []).1 (by decide)

/-! ## White space around a conversion -/

/-- The last character of the string that is not a separator is white space;
`b` is the answer for a string of separators only. -/
def spaceThenSeps (b : Bool) : GoString → Bool
  | [] => b
  | c :: cs => if isSep c then spaceThenSeps b cs else spaceThenSeps (isSpace c) cs

theorem spaceThenSeps_append (b : Bool) (p u : GoString) :
    spaceThenSeps b (p ++ u) = spaceThenSeps (spaceThenSeps b p) u := by
  induction p generalizing b with
  | nil => rfl
  | cons c cs ih =>
    simp only [List.cons_append, spaceThenSeps]
    split <;> exact ih _

theorem spaceThenSeps_mono (b : Bool) (u : GoString) (h : spaceThenSeps false u = true) :
    spaceThenSeps b u = true := by
  induction u with
  | nil => simp [spaceThenSeps] at h
  | cons c cs ih =>
    simp only [spaceThenSeps] at h ⊢
    split
    · next hc => rw [if_pos hc] at h; exact ih h
    · next hc => rw [if_neg hc] at h; exact h

theorem spaceThenSeps_of_append (b : Bool) (p u : GoString)
    (h : spaceThenSeps false u = true) : spaceThenSeps b (p ++ u) = true := by
  rw [spaceThenSeps_append]; exact spaceThenSeps_mono _ u h

theorem spaceThenSeps_filePrefix (b : Bool) (u : GoString) :
    spaceThenSeps b (filePrefix ++ u) = spaceThenSeps false u := by
  rw [spaceThenSeps_append]
  cases b <;> rfl

/-- A scan that writes the `file:` prefix does not bring white space in front
of the trailing separators. -/
theorem spaceThenSeps_replaceScan (old s : GoString) :
    ∀ (k : Nat) (b : Bool), (k = 0 ∨ b = false) →
      spaceThenSeps b (replaceScan old filePrefix k s) = true → spaceThenSeps b s = true := by
  induction s with
  | nil =>
    intro k b _ h
    cases k <;> simpa [replaceScan] using h
  | cons c cs ih =>
    intro k b hk h
    cases k with
    | succ k =>
      have hb : b = false := by
        rcases hk with hk | hk
        · exact absurd hk (Nat.succ_ne_zero k)
        · exact hk
      subst hb
      simp only [replaceScan] at h
      exact spaceThenSeps_of_append false [c] cs (ih k false (Or.inr rfl) h)
    | zero =>
      by_cases hm : old.isPrefixOf (c :: cs) = true
      · rw [replaceScan_cons_of_match _ _ _ _ hm, spaceThenSeps_filePrefix] at h
        exact spaceThenSeps_of_append b [c] cs (ih _ false (Or.inr rfl) h)
      · rw [replaceScan_cons_of_no_match _ _ _ _ (Bool.eq_false_iff.mpr hm)] at h
        simp only [spaceThenSeps] at h ⊢
        split
        · next hc => rw [if_pos hc] at h; exact ih 0 b (Or.inl rfl) h
        · next hc => rw [if_neg hc] at h; exact ih 0 _ (Or.inl rfl) h

theorem spaceThenSeps_mapChar (b : Bool) (s : GoString) :
    spaceThenSeps b (mapChar '/' '\\' s) = spaceThenSeps b s := by
  induction s generalizing b with
  | nil => rfl
  | cons c cs ih =>
    rw [mapChar_cons]
    by_cases hc : c = '/'
    · subst hc
      simp only [if_true, spaceThenSeps]
      rw [if_pos (by decide), if_pos (by decide)]
      exact ih b
    · simp only [hc, if_false, spaceThenSeps]
      split <;> exact ih _

theorem spaceThenSeps_concat (b : Bool) (s : GoString) (c : Char) :
    spaceThenSeps b (s ++ [c]) = if isSep c then spaceThenSeps b s else isSpace c := by
  rw [spaceThenSeps_append]
  simp only [spaceThenSeps]

/-- Without a `/`, trimming the backslashes uncovers the last character that is
not a separator. -/
theorem dropTrailing_getLast_of_spaceThenSeps (w : GoString) (hs : '/' ∉ w)
    (h : spaceThenSeps false w = false) :
    ∀ c ∈ (dropTrailing '\\' w).getLast?, isSpace c = false := by
  induction w using List.reverseRecOn with
  | nil => intro c hc; simp [dropTrailing] at hc
  | append_singleton s d ih =>
    have hs2 : '/' ∉ s := fun hm => hs (List.mem_append_left _ hm)
    have hd : d ≠ '/' := fun e => hs (by rw [e]; simp)
    rw [spaceThenSeps_concat] at h
    by_cases hb : d = '\\'
    · subst hb
      rw [if_pos (by decide)] at h
      rw [dropTrailing_concat]
      exact ih hs2 h
    · have hsep : isSep d = false := by simp [isSep, hd, hb]
      rw [hsep] at h
      simp only [Bool.false_eq_true, if_false] at h
      rw [dropTrailing_of_getLast '\\' d _ (List.getLast?_concat s) hb, List.getLast?_concat]
      intro c hc
      cases hc
      exact h

theorem contains_trimSpace_eq (s sub : GoString) (hne : sub ≠ [])
    (h1 : ∀ c ∈ sub.head?, isSpace c = false)
    (h2 : ∀ c ∈ sub.reverse.head?, isSpace c = false) :
    contains (trimSpace s) sub = contains s sub := by
  rw [Bool.eq_iff_iff]
  constructor
  · intro h
    obtain ⟨pre, post, hs, _, _⟩ := trimSpace_decomp s
    rw [contains_iff_isInfix] at h ⊢
    have hi : trimSpace s <:+: s := ⟨pre, post, hs.symm⟩
    exact h.trans hi
  · exact contains_trimSpace s sub hne h1 h2

theorem checkString_trimSpace (s : GoString) :
    (checkString (trimSpace s)).1 = (checkString s).1 := by
  rw [checkString_eq, checkString_eq, trimSpace_idem]
  split_ifs <;> rfl

/-- The conversion of an input is the conversion of its trimmed form. -/
theorem convertLink_trimSpace_eq (s : GoString) : convertLink s = convertLink (trimSpace s) := by
  have ht := checkString_trimSpace s
  rcases tag_cases s with h | h | h
  · have h' : (checkString (trimSpace s)).1 = 0 := ht.trans h
    rw [convertLink_eq s, convertLink_eq (trimSpace s), checkString_zero s h,
      checkString_zero _ h']
    simp only [contains_trimSpace_eq s fileColon (by decide) (by decide) (by decide)]
    rfl
  · have h' : (checkString (trimSpace s)).1 = 1 := ht.trans h
    rw [convertLink_eq s, convertLink_eq (trimSpace s), (checkString_windows s h).1,
      (checkString_windows _ h').1, trimSpace_idem]
  · have h' : (checkString (trimSpace s)).1 = -1 := ht.trans h
    rw [convertLink_eq s, convertLink_eq (trimSpace s), (checkString_mac s h).1,
      (checkString_mac _ h').1, trimSpace_idem]

theorem isSpace_ite (a b c : Char) (hb : isSpace b = false) (hc : isSpace c = false) :
    isSpace (if c = a then b else c) = false := by
  split
  · exact hb
  · exact hc

/-- The Mac form of a string that does not end with white space does not end
with white space. -/
theorem windowsToMacPath_getLast (t : GoString) (ht : ∀ c ∈ t.getLast?, isSpace c = false) :
    ∀ c ∈ (windowsToMacPath t).getLast?, isSpace c = false := by
  intro x hx
  rw [windowsToMacPath_eq, getLast_mapChar] at hx
  obtain ⟨y, hy, rfl⟩ := Option.mem_map.mp hx
  apply isSpace_ite _ _ _ (by decide)
  rcases replaceScan_getLast backslash2 smbPrefix (by decide) _ 0 y hy with h2 | h2
  · rcases replaceScan_getLast filePrefix smbPrefix (by decide) _ 0 y h2 with h3 | h3
    · rw [getLast_mapChar] at h3
      obtain ⟨z, hz, rfl⟩ := Option.mem_map.mp h3
      exact isSpace_ite _ _ _ (by decide) (ht z hz)
    · cases h3; decide
  · cases h2; decide

/-- The Windows form of a string with no white space in front of its trailing
separators does not end with white space. -/
theorem macToWindowsPath_getLast_space (t : GoString) (ht : spaceThenSeps false t = false) :
    ∀ c ∈ (macToWindowsPath t).getLast?, isSpace c = false := by
  rw [macToWindowsPath_eq]
  apply dropTrailing_getLast_of_spaceThenSeps _ (not_mem_macBody t)
  rw [Bool.eq_false_iff] at ht ⊢
  intro h
  apply ht
  rw [macBody_eq, spaceThenSeps_mapChar] at h
  exact spaceThenSeps_replaceScan smbPrefix t 0 false (Or.inl rfl)
    (spaceThenSeps_replaceScan slash2 _ 0 false (Or.inl rfl) h)

/-- C17, as the code has it: an input converts as its trimmed form does; the
converted value of a recognized link does not start with white space; it does
not end with white space for a Windows link, nor for a Mac link whose trimmed
form has no white space in front of its trailing separators. -/
theorem convertLink_trimSpace (s : GoString) :
    convertLink s = convertLink (trimSpace s) ∧
      ((checkString s).1 ≠ 0 → ∀ c ∈ (convertLink s).2.head?, isSpace c = false) ∧
      ((checkString s).1 = 1 → ∀ c ∈ (convertLink s).2.getLast?, isSpace c = false) ∧
      ((checkString s).1 = -1 → spaceThenSeps false (trimSpace s) = false →
        ∀ c ∈ (convertLink s).2.getLast?, isSpace c = false) := by
  have hlast : ∀ c ∈ (trimSpace s).getLast?, isSpace c = false := by
    intro c hc
    exact trimSpace_last s c (by rw [List.head?_reverse]; exact hc)
  refine ⟨convertLink_trimSpace_eq s, ?_, ?_, ?_⟩
  · intro h0
    rcases tag_cases s with h | h | h
    · exact absurd h h0
    · obtain ⟨hc, hp⟩ := checkString_windows s h
      obtain ⟨r, hr⟩ := windowsToMacPath_of_hasPrefix _ hp
      rw [convertLink_eq, if_pos h, hc]
      simp only [hr]
      intro c hc2
      cases hc2
      decide
    · obtain ⟨hc, hp⟩ := checkString_mac s h
      rw [convertLink_eq, if_neg (by rw [h]; decide), if_pos h, hc]
      rcases macToWindowsPath_of_hasPrefix _ hp with h1 | ⟨r, hr, _⟩
      · simp only [h1]; decide
      · simp only [hr]
        intro c hc2
        cases hc2
        decide
  · intro h
    rw [convertLink_eq, if_pos h, (checkString_windows s h).1]
    exact windowsToMacPath_getLast _ hlast
  · intro h hs
    rw [convertLink_eq, if_neg (by rw [h]; decide), if_pos h, (checkString_mac s h).1]
    exact macToWindowsPath_getLast_space _ hs

theorem convertLink_trimSpace_witness :
    convertLink "   smb://example.corp/_path/folder/etc     ".toList =
        convertLink "smb://example.corp/_path/folder/etc".toList ∧
      (∀ c ∈ (convertLink "   smb://example.corp/_path/folder/etc     ".toList).2.head?,
        isSpace c = false) ∧
      (∀ c ∈ (convertLink "  file:\\\\host\\share \\  ".toList).2.getLast?,
        isSpace c = false) ∧
      (∀ c ∈ (convertLink "   smb://example.corp/_path/folder/etc     ".toList).2.getLast?,
        isSpace c = false) :=
  ⟨(convertLink_trimSpace "   smb://example.corp/_path/folder/etc     ".toList).1.trans
      (by decide),
    (convertLink_trimSpace "   smb://example.corp/_path/folder/etc     ".toList).2.1
      (by decide),
    (convertLink_trimSpace "  file:\\\\host\\share \\  ".toList).2.2.1 (by decide),
    (convertLink_trimSpace "   smb://example.corp/_path/folder/etc     ".toList).2.2.2
      (by decide) (by decide)⟩

/-- C17 as stated fails: a Mac link with a blank in front of its trailing
slash converts to a value that ends with the blank. -/
theorem convertLink_trailing_space_counterexample :
    (checkString "//a /".toList).1 = -1 ∧
      (convertLink "//a /".toList).2 = "file:\\\\a ".toList ∧
      (convertLink "//a /".toList).2.getLast? = some ' ' ∧ isSpace ' ' = true := by
  decide

end LinkGopher
